import Mathlib

/-!
Shallow embedding of the tic-tac-toe repository (src/rules.py and
src/tictactoe.py) and proofs about it.

The board is an n×n grid of integer cell values; we embed the numpy
two-dimensional array as a list of rows, each row a list of `Int`.
Coordinates are zero-based `Nat` pairs (x, y) with x the row index and
y the column index, matching the source's `board[x][y]` access.
Python strings are embedded as `List Char`.
-/

namespace TTT

/-- A board: list of rows, each row a list of cell values. -/
abbrev Board := List (List Int)

/-- rules.EMPTY -/
def EMPTY : Int := 0

/-- rules.NOUGHT -/
def NOUGHT : Int := 1

/-- rules.CROSS -/
def CROSS : Int := -1

/-- rules.sides = [CROSS, NOUGHT] -/
def sides : List Int := [CROSS, NOUGHT]

/-- rules.token: the display token for a cell value; unknown values map
to the sentinel token. Embeds the dict lookup with its KeyError fallback. -/
def token (value : Int) : Char :=
  if value = EMPTY then ' '
  else if value = NOUGHT then 'o'
  else if value = CROSS then 'x'
  else '?'

/-- rules.opponent -/
def opponent (side : Int) : Int := -side

/-- Helper for `empty_cells`: the empty cells of one row, the row being
row `x` of the board and `y` the column index of the row's first cell. -/
def rowEmpties (x : Nat) : Nat → List Int → List (Nat × Nat)
  | _, [] => []
  | y, v :: t =>
    if v = EMPTY then (x, y) :: rowEmpties x (y + 1) t
    else rowEmpties x (y + 1) t

/-- Helper for `empty_cells`: scan rows starting at row index `x`. -/
def emptyCellsAux : Nat → List (List Int) → List (Nat × Nat)
  | _, [] => []
  | x, row :: rest => rowEmpties x 0 row ++ emptyCellsAux (x + 1) rest

/-- rules.empty_cells: the coordinates of all EMPTY cells in row-major
order, as produced by np.transpose(np.nonzero(board == EMPTY)). -/
def empty_cells (board : Board) : List (Nat × Nat) :=
  emptyCellsAux 0 board

/-- rules.valid_move: membership test of the move in the empty-cell list. -/
def valid_move (board : Board) (move : Nat × Nat) : Bool :=
  decide (move ∈ empty_cells board)

/-- Row `x` of the board (board[x]). -/
def rowList (board : Board) (x : Nat) : List Int := board.getD x []

/-- Column `y` of the board (board[:,y]). -/
def colList (board : Board) (y : Nat) : List Int :=
  board.map (fun row => row.getD y 0)

/-- The main diagonal (board.diagonal()). -/
def diagList (board : Board) : List Int :=
  (List.range board.length).map (fun i => (board.getD i []).getD i 0)

/-- The anti-diagonal (np.fliplr(board).diagonal()). -/
def antiDiagList (board : Board) : List Int :=
  (List.range board.length).map
    (fun i => (board.getD i []).getD (board.length - 1 - i) 0)

/-- rules.winning_move: checks in order whether the move's row, the
move's column, the main diagonal (only if x==y) or the anti-diagonal
(only if x == (n-1)-y) sums to ±n. -/
def winning_move (board : Board) (move : Nat × Nat) : Bool :=
  let n := board.length
  let x := move.1
  let y := move.2
  if (rowList board x).sum.natAbs = n then true
  else if (colList board y).sum.natAbs = n then true
  else if x = y ∧ (diagList board).sum.natAbs = n then true
  else if x = (n - 1) - y ∧ (antiDiagList board).sum.natAbs = n then true
  else false

/-- rules.board_full: EMPTY not in board. -/
def board_full (board : Board) : Bool :=
  decide (∀ row ∈ board, EMPTY ∉ row)

/-- '.join' of Python strings, on the char-list embedding of strings. -/
def strJoin (sep : Char) : List (List Char) → List Char
  | [] => []
  | [s] => s
  | s :: t :: rest => s ++ sep :: strJoin sep (t :: rest)

/-- rules.board_str: columns joined by the bar, rows joined by newline. -/
def board_str (board : Board) : List Char :=
  strJoin '\n' (board.map (fun row => strJoin '|' (row.map (fun v => [token v]))))

/-- Well-formedness: the board is an n×n grid. -/
def isSquare (n : Nat) (board : Board) : Prop :=
  board.length = n ∧ ∀ row ∈ board, row.length = n

/-- Cell-value constraint: every cell is EMPTY, NOUGHT or CROSS. -/
def cellsOk (board : Board) : Prop :=
  ∀ row ∈ board, ∀ v ∈ row, v = EMPTY ∨ v = NOUGHT ∨ v = CROSS

instance (n : Nat) (board : Board) : Decidable (isSquare n board) := by
  unfold isSquare; infer_instance

instance (board : Board) : Decidable (cellsOk board) := by
  unfold cellsOk; infer_instance

/-- np.zeros((n, n)): the all-EMPTY n×n board (also the state after
`self.board.fill(rules.EMPTY)`). -/
def emptyBoard (n : Nat) : Board :=
  List.replicate n (List.replicate n EMPTY)

/-- Writing a side into the board at a move: self.board[move] = side. -/
def setCell (board : Board) (move : Nat × Nat) (v : Int) : Board :=
  board.set move.1 ((board.getD move.1 []).set move.2 v)

/-- Number of EMPTY cells on the board. -/
def countEmpty (board : Board) : Nat :=
  (board.map (fun row => row.countP (fun v => v = EMPTY))).sum

/-- A Player collaborator: an identifier (to tell players apart in
traces) and a pure move strategy, the `move(board)` method receiving a
snapshot of the board. -/
structure Player where
  id : Nat
  strat : Board → Nat × Nat

/-- A player together with the `side` attribute that `set_players`
assigns on it. -/
structure PlayerWithSide where
  p : Player
  side : Int

/-- Placeholder player used as the default of list lookups; selections
in `playAux` always have an in-bounds index, so it is never produced. -/
def defaultPlayer : PlayerWithSide :=
  ⟨⟨0, fun _ => (0, 0)⟩, 0⟩

/-- TicTacToe.set_players: raises ValueError when the number of players
differs from the number of sides, otherwise assigns each player a side
from `sides` in list order (for player, side in zip(players, sides)). -/
def set_players (players : List Player) : Except String (List PlayerWithSide) :=
  if players.length ≠ sides.length then
    .error ("Incorrect number of players, expected " ++ toString sides.length ++ ".")
  else
    .ok ((players.zip sides).map (fun q => ⟨q.1, q.2⟩))

/-- The outcome of the `play` loop. -/
inductive Result where
  | win (side : Int)
  | draw
  | illegal (move : Nat × Nat)
deriving Repr, DecidableEq

/-- The body of TicTacToe.play after the optional shuffle: visit the
players in a repeating cycle (turn t is played by players[t % len]);
request a move; apply it when valid, else raise; then check for a win
and for a full board. `fuel` bounds the recursion; `t` counts the move
requests made so far. Returns the outcome, the final board and the
total number of move requests, or `none` when fuel runs out.
Iterating `cycle([])` runs the loop body zero times, so an empty player
list returns the draw sentinel at once with no requests. -/
def playAux (ps : List PlayerWithSide) : Nat → Board → Nat → Option (Result × Board × Nat)
  | 0, _, _ => none
  | fuel + 1, board, t =>
    match ps with
    | [] => some (.draw, board, t)
    | _ :: _ =>
      let player := ps.getD (t % ps.length) defaultPlayer
      let mv := player.p.strat board
      if valid_move board mv then
        let board' := setCell board mv player.side
        if winning_move board' mv then some (.win player.side, board', t + 1)
        else if board_full board' then some (.draw, board', t + 1)
        else playAux ps fuel board' (t + 1)
      else some (.illegal mv, board, t + 1)

/-- The observable effects of one TicTacToe.run call. -/
structure RunResult where
  /-- Players in the order their start() was called. -/
  startOrder : List PlayerWithSide
  /-- The value run() returns (`some side` win, `none` draw), or the
  coordinate of the illegal move whose ValueError propagated. -/
  res : Except (Nat × Nat) (Option Int)
  /-- finish() calls, in order, with the winner value passed to each. -/
  finishCalls : List (PlayerWithSide × Option Int)
  /-- The player collection after the run (play's shuffle mutates it in
  place, so it persists into later runs). -/
  playersAfter : List PlayerWithSide
  /-- The board after the run. -/
  boardAfter : Board

/-- TicTacToe.run for a runner with player collection `players`, board
size `n` and shuffle flag `shuffle`: reset the board to all-EMPTY, call
start() on every player in the collection's current order, run play()
(whose first act, when shuffling, permutes the collection in place —
`shuffleFn` supplies the permutation random.shuffle would pick), then
call finish(winner) on every player unless play raised. -/
def run (players : List PlayerWithSide) (n : Nat) (shuffle : Bool)
    (shuffleFn : List PlayerWithSide → List PlayerWithSide) (fuel : Nat) :
    Option RunResult :=
  let board := emptyBoard n
  let startOrder := players
  let players' := if shuffle then shuffleFn players else players
  match playAux players' fuel board 0 with
  | none => none
  | some (.illegal mv, board', _) =>
    some ⟨startOrder, .error mv, [], players', board'⟩
  | some (.win s, board', _) =>
    some ⟨startOrder, .ok (some s), players'.map (fun q => (q, some s)), players', board'⟩
  | some (.draw, board', _) =>
    some ⟨startOrder, .ok none, players'.map (fun q => (q, none)), players', board'⟩

/-- The win lines that pass through a move, as `winning_move` selects
them: the move's row, the move's column, the main diagonal when x==y
and the anti-diagonal when x == (n-1)-y. -/
def linesThrough (board : Board) (move : Nat × Nat) : List (List Int) :=
  let n := board.length
  [rowList board move.1, colList board move.2]
    ++ (if move.1 = move.2 then [diagList board] else [])
    ++ (if move.1 = (n - 1) - move.2 then [antiDiagList board] else [])

/-- Splitting a char list at every occurrence of a separator, as
Python str.split does: the inverse direction of `strJoin`. -/
def splitOnChar (c : Char) : List Char → List (List Char)
  | [] => [[]]
  | a :: t =>
    if a = c then [] :: splitOnChar c t
    else
      match splitOnChar c t with
      | [] => [[a]]
      | h :: r => (a :: h) :: r

/-- Parsing one rendered token back to the cell value it displays. -/
def tokenInv (s : List Char) : Option Int :=
  if s = [' '] then some EMPTY
  else if s = ['o'] then some NOUGHT
  else if s = ['x'] then some CROSS
  else none

/-- Parsing a list of rendered tokens back to a row of cell values. -/
def parseTokens : List (List Char) → Option (List Int)
  | [] => some []
  | s :: rest =>
    match tokenInv s, parseTokens rest with
    | some v, some vs => some (v :: vs)
    | _, _ => none

/-- Parsing the rendered rows of a board. -/
def parseRows : List (List Char) → Option Board
  | [] => some []
  | r :: rest =>
    match parseTokens (splitOnChar '|' r), parseRows rest with
    | some row, some rows => some (row :: rows)
    | _, _ => none

/-- Parsing a full `board_str` rendering back to a board. -/
def parse_board (s : List Char) : Option Board :=
  parseRows (splitOnChar '\n' s)

/-- The board invariant: an n×n grid whose cells are all in
{EMPTY, NOUGHT, CROSS}. -/
def boardInv (n : Nat) (board : Board) : Prop :=
  isSquare n board ∧ cellsOk board

/-- Every player's side is one of the two defined sides, as
`set_players` establishes. -/
def playersOk (ps : List PlayerWithSide) : Prop :=
  ∀ q ∈ ps, q.side = NOUGHT ∨ q.side = CROSS

instance (ps : List PlayerWithSide) : Decidable (playersOk ps) := by
  unfold playersOk; infer_instance

/-- Scripted player A of the 3×3 end-to-end scenario: moves (0,0),
(1,1), (2,2) on its successive turns (selected by the number of EMPTY
cells in the snapshot it receives). -/
def scriptedA : Player :=
  ⟨0, fun b =>
    if countEmpty b = 9 then (0, 0)
    else if countEmpty b = 7 then (1, 1)
    else (2, 2)⟩

/-- Scripted player B of the 3×3 end-to-end scenario: moves (0,1),
(1,0) on its successive turns. -/
def scriptedB : Player :=
  ⟨1, fun b => if countEmpty b = 8 then (0, 1) else (1, 0)⟩

/-- A player that always proposes (0,0). -/
def constA : Player := ⟨0, fun _ => (0, 0)⟩

/-- A second player that always proposes (0,0). -/
def constB : Player := ⟨1, fun _ => (0, 0)⟩

/-! ### Lemmas about `empty_cells` and `valid_move` -/

theorem getD_mem {α : Type} (l : List α) (i : Nat) (d : α) (h : i < l.length) :
    l.getD i d ∈ l := by
  rw [List.getD_eq_getElem l d h]
  exact List.getElem_mem h

theorem row_length {n : Nat} {board : Board} (hsq : isSquare n board)
    {x : Nat} (hx : x < n) : (board.getD x []).length = n := by
  have hlen := hsq.1
  exact hsq.2 _ (getD_mem board x [] (by omega))

theorem mem_rowEmpties (x : Nat) (row : List Int) : ∀ (y0 x' y' : Nat),
    ((x', y') ∈ rowEmpties x y0 row ↔
      ∃ j, j < row.length ∧ row.getD j 0 = EMPTY ∧ x' = x ∧ y' = y0 + j) := by
  induction row with
  | nil => intro y0 x' y'; simp [rowEmpties]
  | cons v t ih =>
    intro y0 x' y'
    by_cases hv : v = EMPTY
    · rw [rowEmpties, if_pos hv]
      simp only [List.mem_cons, ih (y0 + 1) x' y', Prod.mk.injEq, List.length_cons]
      constructor
      · rintro (⟨rfl, rfl⟩ | ⟨j, hj, hget, rfl, rfl⟩)
        · exact ⟨0, by omega, by simpa using hv, rfl, by omega⟩
        · exact ⟨j + 1, by omega, by simpa using hget, rfl, by omega⟩
      · rintro ⟨j, hj, hget, rfl, rfl⟩
        cases j with
        | zero => exact Or.inl ⟨rfl, by omega⟩
        | succ k => exact Or.inr ⟨k, by omega, by simpa using hget, rfl, by omega⟩
    · rw [rowEmpties, if_neg hv]
      rw [ih (y0 + 1) x' y']
      constructor
      · rintro ⟨j, hj, hget, rfl, rfl⟩
        exact ⟨j + 1, by simpa using hj, by simpa using hget, rfl, by omega⟩
      · rintro ⟨j, hj, hget, rfl, rfl⟩
        cases j with
        | zero => exact absurd (by simpa using hget) hv
        | succ k => exact ⟨k, by simpa using hj, by simpa using hget, rfl, by omega⟩

theorem mem_emptyCellsAux (rows : List (List Int)) : ∀ (x0 x' y' : Nat),
    ((x', y') ∈ emptyCellsAux x0 rows ↔
      ∃ i, i < rows.length ∧ x' = x0 + i ∧ y' < (rows.getD i []).length ∧
        (rows.getD i []).getD y' 0 = EMPTY) := by
  induction rows with
  | nil => intro x0 x' y'; simp [emptyCellsAux]
  | cons row rest ih =>
    intro x0 x' y'
    rw [emptyCellsAux, List.mem_append, mem_rowEmpties x0 row 0 x' y', ih (x0 + 1) x' y']
    constructor
    · rintro (⟨j, hj, hget, rfl, rfl⟩ | ⟨i, hi, rfl, hy, hget⟩)
      · exact ⟨0, by simp, by omega, by simpa using hj, by simpa using hget⟩
      · exact ⟨i + 1, by simpa using hi, by omega, by simpa using hy, by simpa using hget⟩
    · rintro ⟨i, hi, rfl, hy, hget⟩
      cases i with
      | zero => exact Or.inl ⟨y', by simpa using hy, by simpa using hget, by omega, by omega⟩
      | succ k =>
        exact Or.inr ⟨k, by simpa using hi, by omega, by simpa using hy, by simpa using hget⟩

theorem mem_empty_cells (board : Board) (x y : Nat) :
    (x, y) ∈ empty_cells board ↔
      x < board.length ∧ y < (board.getD x []).length ∧
        (board.getD x []).getD y 0 = EMPTY := by
  rw [empty_cells, mem_emptyCellsAux board 0 x y]
  constructor
  · rintro ⟨i, hi, hx, hy, hget⟩
    have hxi : i = x := by omega
    subst hxi
    exact ⟨hi, hy, hget⟩
  · rintro ⟨hx, hy, hget⟩
    exact ⟨x, hx, by omega, hy, hget⟩

theorem mem_empty_cells_iff {n : Nat} {board : Board} (hsq : isSquare n board)
    (x y : Nat) :
    (x, y) ∈ empty_cells board ↔
      x < n ∧ y < n ∧ (board.getD x []).getD y 0 = EMPTY := by
  rw [mem_empty_cells]
  have hlen := hsq.1
  constructor
  · rintro ⟨hx, hy, hget⟩
    have hrow := row_length hsq (show x < n by omega)
    exact ⟨by omega, by omega, hget⟩
  · rintro ⟨hx, hy, hget⟩
    have hrow := row_length hsq hx
    exact ⟨by omega, by omega, hget⟩

/-- C3: `valid_move` returns true exactly for the coordinate pairs in
`empty_cells`; membership in `empty_cells` of an n×n board means
in-bounds coordinates naming an EMPTY cell, so out-of-range coordinates
are absent from `empty_cells` and rejected as invalid (the scan being a
total function, no error is raised). -/
theorem valid_move_spec (n : Nat) (board : Board) (hsq : isSquare n board)
    (move : Nat × Nat) :
    (valid_move board move = true ↔ move ∈ empty_cells board) ∧
    (move ∈ empty_cells board ↔
      move.1 < n ∧ move.2 < n ∧ (board.getD move.1 []).getD move.2 0 = EMPTY) ∧
    (n ≤ move.1 ∨ n ≤ move.2 → valid_move board move = false) := by
  have h2 : move ∈ empty_cells board ↔
      move.1 < n ∧ move.2 < n ∧ (board.getD move.1 []).getD move.2 0 = EMPTY := by
    obtain ⟨x, y⟩ := move
    exact mem_empty_cells_iff hsq x y
  refine ⟨by simp [valid_move], h2, ?_⟩
  intro hout
  simp only [valid_move, decide_eq_false_iff_not]
  rw [h2]
  rintro ⟨hx, hy, -⟩
  omega

theorem valid_move_spec_witness :
    isSquare 2 [[0, 1], [0, 0]] ∧
    ((valid_move [[0, 1], [0, 0]] (0, 5) = true ↔ (0, 5) ∈ empty_cells [[0, 1], [0, 0]]) ∧
      ((0, 5) ∈ empty_cells [[0, 1], [0, 0]] ↔
        (0, 5).1 < 2 ∧ (0, 5).2 < 2 ∧
          (([[0, 1], [0, 0]] : Board).getD (0, 5).1 []).getD (0, 5).2 0 = EMPTY) ∧
      (2 ≤ (0, 5).1 ∨ 2 ≤ (0, 5).2 → valid_move [[0, 1], [0, 0]] (0, 5) = false)) :=
  ⟨by decide, valid_move_spec 2 [[0, 1], [0, 0]] (by decide) (0, 5)⟩

/-! ### Lemmas about line sums and `winning_move` -/

theorem sum_le_length (l : List Int) (h : ∀ v ∈ l, v ≤ 1) :
    l.sum ≤ (l.length : Int) := by
  induction l with
  | nil => simp
  | cons a t ih =>
    have ha := h a (by simp)
    have ht := ih (fun v hv => h v (by simp [hv]))
    simp only [List.sum_cons, List.length_cons]
    push_cast
    omega

theorem neg_length_le_sum (l : List Int) (h : ∀ v ∈ l, -1 ≤ v) :
    -(l.length : Int) ≤ l.sum := by
  induction l with
  | nil => simp
  | cons a t ih =>
    have ha := h a (by simp)
    have ht := ih (fun v hv => h v (by simp [hv]))
    simp only [List.sum_cons, List.length_cons]
    push_cast
    omega

theorem sum_eq_length_iff (l : List Int) (h : ∀ v ∈ l, v ≤ 1) :
    l.sum = (l.length : Int) ↔ ∀ v ∈ l, v = 1 := by
  induction l with
  | nil => simp
  | cons a t ih =>
    have ha := h a (by simp)
    have ht : ∀ v ∈ t, v ≤ 1 := fun v hv => h v (by simp [hv])
    have hb := sum_le_length t ht
    simp only [List.sum_cons, List.length_cons, List.mem_cons]
    constructor
    · intro heq
      have hc : (↑(t.length + 1) : Int) = (t.length : Int) + 1 := by push_cast; ring
      rw [hc] at heq
      have hts : t.sum = (t.length : Int) := by omega
      have ha1 : a = 1 := by omega
      rintro v (rfl | hv)
      · exact ha1
      · exact (ih ht).mp hts v hv
    · intro hall
      have ha1 : a = 1 := hall a (Or.inl rfl)
      have hts := (ih ht).mpr (fun v hv => hall v (Or.inr hv))
      push_cast
      omega

theorem sum_eq_neg_length_iff (l : List Int) (h : ∀ v ∈ l, -1 ≤ v) :
    l.sum = -(l.length : Int) ↔ ∀ v ∈ l, v = -1 := by
  induction l with
  | nil => simp
  | cons a t ih =>
    have ha := h a (by simp)
    have ht : ∀ v ∈ t, -1 ≤ v := fun v hv => h v (by simp [hv])
    have hb := neg_length_le_sum t ht
    simp only [List.sum_cons, List.length_cons, List.mem_cons]
    constructor
    · intro heq
      have hc : (↑(t.length + 1) : Int) = (t.length : Int) + 1 := by push_cast; ring
      rw [hc] at heq
      have hts : t.sum = -(t.length : Int) := by omega
      have ha1 : a = -1 := by omega
      rintro v (rfl | hv)
      · exact ha1
      · exact (ih ht).mp hts v hv
    · intro hall
      have ha1 : a = -1 := hall a (Or.inl rfl)
      have hts := (ih ht).mpr (fun v hv => hall v (Or.inr hv))
      push_cast
      omega

/-- For a line whose cells are in {0, +1, −1}, the signed sum has
absolute value equal to the line's length exactly when every cell is
the same non-zero side. -/
theorem line_complete_iff (n : Nat) (l : List Int) (hlen : l.length = n)
    (hcell : ∀ v ∈ l, v = EMPTY ∨ v = NOUGHT ∨ v = CROSS) :
    l.sum.natAbs = n ↔
      ∃ s : Int, (s = NOUGHT ∨ s = CROSS) ∧ ∀ v ∈ l, v = s := by
  subst hlen
  have h1 : ∀ v ∈ l, v ≤ 1 := by
    intro v hv
    rcases hcell v hv with rfl | rfl | rfl <;> simp [EMPTY, NOUGHT, CROSS]
  have h2 : ∀ v ∈ l, -1 ≤ v := by
    intro v hv
    rcases hcell v hv with rfl | rfl | rfl <;> simp [EMPTY, NOUGHT, CROSS]
  rw [Int.natAbs_eq_iff]
  constructor
  · rintro (hs | hs)
    · exact ⟨1, Or.inl rfl, (sum_eq_length_iff l h1).mp hs⟩
    · exact ⟨-1, Or.inr rfl, (sum_eq_neg_length_iff l h2).mp hs⟩
  · rintro ⟨s, hs, hall⟩
    rcases hs with rfl | rfl
    · exact Or.inl ((sum_eq_length_iff l h1).mpr hall)
    · exact Or.inr ((sum_eq_neg_length_iff l h2).mpr hall)

theorem rowList_length {n : Nat} {board : Board} (hsq : isSquare n board)
    {x : Nat} (hx : x < n) : (rowList board x).length = n :=
  row_length hsq hx

theorem rowList_cells {n : Nat} {board : Board} (hsq : isSquare n board)
    (hcells : cellsOk board) {x : Nat} (hx : x < n) :
    ∀ v ∈ rowList board x, v = EMPTY ∨ v = NOUGHT ∨ v = CROSS := by
  intro v hv
  have hlen := hsq.1
  exact hcells _ (getD_mem board x [] (by omega)) v hv

theorem colList_length {n : Nat} {board : Board} (hsq : isSquare n board) :
    (colList board y).length = n := by
  simp [colList, hsq.1]

theorem colList_cells {n : Nat} {board : Board} (hsq : isSquare n board)
    (hcells : cellsOk board) {y : Nat} (hy : y < n) :
    ∀ v ∈ colList board y, v = EMPTY ∨ v = NOUGHT ∨ v = CROSS := by
  intro v hv
  rcases List.mem_map.mp hv with ⟨row, hrow, rfl⟩
  have hrl : row.length = n := hsq.2 row hrow
  exact hcells row hrow _ (getD_mem row y 0 (by omega))

theorem diagList_length {n : Nat} {board : Board} (hsq : isSquare n board) :
    (diagList board).length = n := by
  simp [diagList, hsq.1]

theorem diagList_cells {n : Nat} {board : Board} (hsq : isSquare n board)
    (hcells : cellsOk board) :
    ∀ v ∈ diagList board, v = EMPTY ∨ v = NOUGHT ∨ v = CROSS := by
  intro v hv
  rcases List.mem_map.mp hv with ⟨i, hi, rfl⟩
  have hlen := hsq.1
  have hin : i < n := by
    have := List.mem_range.mp hi
    omega
  have hrow : board.getD i [] ∈ board := getD_mem board i [] (by omega)
  have hrl : (board.getD i []).length = n := hsq.2 _ hrow
  exact hcells _ hrow _ (getD_mem _ i 0 (by omega))

theorem antiDiagList_cells {n : Nat} {board : Board} (hsq : isSquare n board)
    (hcells : cellsOk board) :
    ∀ v ∈ antiDiagList board, v = EMPTY ∨ v = NOUGHT ∨ v = CROSS := by
  intro v hv
  rcases List.mem_map.mp hv with ⟨i, hi, rfl⟩
  have hin : i < n := by
    have := List.mem_range.mp hi
    have := hsq.1
    omega
  have hlen := hsq.1
  have hrow : board.getD i [] ∈ board := getD_mem board i [] (by omega)
  have hrl : (board.getD i []).length = n := hsq.2 _ hrow
  exact hcells _ hrow _ (getD_mem _ _ 0 (by omega))

theorem antiDiagList_length {n : Nat} {board : Board} (hsq : isSquare n board) :
    (antiDiagList board).length = n := by
  simp [antiDiagList, hsq.1]

theorem mem_linesThrough {n : Nat} {board : Board} (hb : board.length = n)
    (x y : Nat) (l : List Int) :
    l ∈ linesThrough board (x, y) ↔
      l = rowList board x ∨ l = colList board y ∨
        (x = y ∧ l = diagList board) ∨
        (x = (n - 1) - y ∧ l = antiDiagList board) := by
  simp only [linesThrough, hb, List.append_assoc, List.mem_append, List.mem_cons,
    List.not_mem_nil, or_false]
  split_ifs with h1 h2 <;> simp_all <;> tauto

/-- C1: `winning_move` returns true iff one of the four candidate
lines (the move's row, the move's column, the main diagonal only when
x==y, the anti-diagonal only when x==(n-1)-y) has a signed sum of
absolute value n; under the cell-value constraint this holds iff some
line through the move consists of n identical non-zero sides, and when
no complete line passes through the move it returns false. -/
theorem winning_move_spec (n : Nat) (board : Board) (x y : Nat)
    (hsq : isSquare n board) (hcells : cellsOk board) (hx : x < n) (hy : y < n) :
    (winning_move board (x, y) = true ↔
      (rowList board x).sum.natAbs = n ∨ (colList board y).sum.natAbs = n ∨
        (x = y ∧ (diagList board).sum.natAbs = n) ∨
        (x = (n - 1) - y ∧ (antiDiagList board).sum.natAbs = n)) ∧
    (winning_move board (x, y) = true ↔
      ∃ l ∈ linesThrough board (x, y), ∃ s : Int, (s = NOUGHT ∨ s = CROSS) ∧
        l.length = n ∧ ∀ v ∈ l, v = s) ∧
    ((¬ ∃ l ∈ linesThrough board (x, y), ∃ s : Int, (s = NOUGHT ∨ s = CROSS) ∧
        l.length = n ∧ ∀ v ∈ l, v = s) → winning_move board (x, y) = false) := by
  have hb : board.length = n := hsq.1
  have hrow := line_complete_iff n (rowList board x) (rowList_length hsq hx)
    (rowList_cells hsq hcells hx)
  have hcol := line_complete_iff n (colList board y) (colList_length hsq)
    (colList_cells hsq hcells hy)
  have hdiag := line_complete_iff n (diagList board) (diagList_length hsq)
    (diagList_cells hsq hcells)
  have hanti := line_complete_iff n (antiDiagList board) (antiDiagList_length hsq)
    (antiDiagList_cells hsq hcells)
  have h1 : winning_move board (x, y) = true ↔
      (rowList board x).sum.natAbs = n ∨ (colList board y).sum.natAbs = n ∨
        (x = y ∧ (diagList board).sum.natAbs = n) ∨
        (x = (n - 1) - y ∧ (antiDiagList board).sum.natAbs = n) := by
    simp only [winning_move, hb]
    split_ifs with c1 c2 c3 c4 <;> simp_all
  have h2 : winning_move board (x, y) = true ↔
      ∃ l ∈ linesThrough board (x, y), ∃ s : Int, (s = NOUGHT ∨ s = CROSS) ∧
        l.length = n ∧ ∀ v ∈ l, v = s := by
    rw [h1]
    constructor
    · rintro (hc | hc | ⟨hxy, hc⟩ | ⟨hxy, hc⟩)
      · rcases hrow.mp hc with ⟨s, hs, hall⟩
        exact ⟨rowList board x, (mem_linesThrough hb x y _).mpr (Or.inl rfl),
          s, hs, rowList_length hsq hx, hall⟩
      · rcases hcol.mp hc with ⟨s, hs, hall⟩
        exact ⟨colList board y, (mem_linesThrough hb x y _).mpr (Or.inr (Or.inl rfl)),
          s, hs, colList_length hsq, hall⟩
      · rcases hdiag.mp hc with ⟨s, hs, hall⟩
        exact ⟨diagList board,
          (mem_linesThrough hb x y _).mpr (Or.inr (Or.inr (Or.inl ⟨hxy, rfl⟩))),
          s, hs, diagList_length hsq, hall⟩
      · rcases hanti.mp hc with ⟨s, hs, hall⟩
        exact ⟨antiDiagList board,
          (mem_linesThrough hb x y _).mpr (Or.inr (Or.inr (Or.inr ⟨hxy, rfl⟩))),
          s, hs, antiDiagList_length hsq, hall⟩
    · rintro ⟨l, hl, s, hs, hlen, hall⟩
      rcases (mem_linesThrough hb x y l).mp hl with rfl | rfl | ⟨hxy, rfl⟩ | ⟨hxy, rfl⟩
      · exact Or.inl (hrow.mpr ⟨s, hs, hall⟩)
      · exact Or.inr (Or.inl (hcol.mpr ⟨s, hs, hall⟩))
      · exact Or.inr (Or.inr (Or.inl ⟨hxy, hdiag.mpr ⟨s, hs, hall⟩⟩))
      · exact Or.inr (Or.inr (Or.inr ⟨hxy, hanti.mpr ⟨s, hs, hall⟩⟩))
  refine ⟨h1, h2, fun hno => ?_⟩
  cases hwm : winning_move board (x, y) with
  | false => rfl
  | true => exact absurd (h2.mp hwm) hno

theorem winning_move_spec_witness :
    (isSquare 3 [[1, 1, 1], [-1, -1, 0], [0, 0, 0]] ∧
      cellsOk [[1, 1, 1], [-1, -1, 0], [0, 0, 0]] ∧ 0 < 3 ∧ 2 < 3) ∧
    ((winning_move [[1, 1, 1], [-1, -1, 0], [0, 0, 0]] (0, 2) = true ↔
      (rowList [[1, 1, 1], [-1, -1, 0], [0, 0, 0]] 0).sum.natAbs = 3 ∨
        (colList [[1, 1, 1], [-1, -1, 0], [0, 0, 0]] 2).sum.natAbs = 3 ∨
        (0 = 2 ∧ (diagList [[1, 1, 1], [-1, -1, 0], [0, 0, 0]]).sum.natAbs = 3) ∨
        (0 = (3 - 1) - 2 ∧
          (antiDiagList [[1, 1, 1], [-1, -1, 0], [0, 0, 0]]).sum.natAbs = 3)) ∧
    (winning_move [[1, 1, 1], [-1, -1, 0], [0, 0, 0]] (0, 2) = true ↔
      ∃ l ∈ linesThrough [[1, 1, 1], [-1, -1, 0], [0, 0, 0]] (0, 2), ∃ s : Int,
        (s = NOUGHT ∨ s = CROSS) ∧ l.length = 3 ∧ ∀ v ∈ l, v = s) ∧
    ((¬ ∃ l ∈ linesThrough [[1, 1, 1], [-1, -1, 0], [0, 0, 0]] (0, 2), ∃ s : Int,
        (s = NOUGHT ∨ s = CROSS) ∧ l.length = 3 ∧ ∀ v ∈ l, v = s) →
      winning_move [[1, 1, 1], [-1, -1, 0], [0, 0, 0]] (0, 2) = false)) :=
  ⟨⟨by decide, by decide, by decide, by decide⟩,
    winning_move_spec 3 [[1, 1, 1], [-1, -1, 0], [0, 0, 0]] 0 2
      (by decide) (by decide) (by decide) (by decide)⟩

/-! ### Lemmas about `board_full`, `countEmpty` and `setCell` -/

theorem countEmpty_eq_zero_iff (board : Board) :
    countEmpty board = 0 ↔ ∀ row ∈ board, EMPTY ∉ row := by
  rw [countEmpty, List.sum_eq_zero_iff]
  constructor
  · intro h row hrow hmem
    have h0 := h (row.countP (fun v => v = EMPTY)) (List.mem_map_of_mem _ hrow)
    rw [List.countP_eq_zero] at h0
    have := h0 EMPTY hmem
    simp at this
  · intro h x hx
    rcases List.mem_map.mp hx with ⟨row, hrow, rfl⟩
    rw [List.countP_eq_zero]
    intro a ha
    simp only [decide_eq_true_eq]
    exact fun heq => h row hrow (heq ▸ ha)

theorem board_full_iff (board : Board) :
    board_full board = true ↔ countEmpty board = 0 := by
  rw [board_full, decide_eq_true_iff, countEmpty_eq_zero_iff]

theorem isSquare_setCell {n : Nat} {board : Board} (hsq : isSquare n board)
    (mv : Nat × Nat) (v : Int) : isSquare n (setCell board mv v) := by
  refine ⟨by rw [setCell, List.length_set]; exact hsq.1, ?_⟩
  intro row hrow
  by_cases hx : mv.1 < board.length
  · rcases List.mem_or_eq_of_mem_set hrow with h | rfl
    · exact hsq.2 _ h
    · rw [List.length_set]
      exact hsq.2 _ (getD_mem _ _ _ hx)
  · rw [setCell, List.set_eq_of_length_le (by omega)] at hrow
    exact hsq.2 _ hrow

theorem cellsOk_setCell {board : Board} (hcells : cellsOk board)
    (mv : Nat × Nat) {v : Int} (hv : v = EMPTY ∨ v = NOUGHT ∨ v = CROSS) :
    cellsOk (setCell board mv v) := by
  intro row hrow w hw
  by_cases hx : mv.1 < board.length
  · rcases List.mem_or_eq_of_mem_set hrow with h | rfl
    · exact hcells _ h w hw
    · rcases List.mem_or_eq_of_mem_set hw with h | rfl
      · exact hcells _ (getD_mem _ _ _ hx) w h
      · exact hv
  · rw [setCell, List.set_eq_of_length_le (by omega)] at hrow
    exact hcells _ hrow w hw

theorem sum_map_set {α : Type} (f : α → Nat) :
    ∀ (l : List α) (i : Nat) (a : α), i < l.length →
      ((l.set i a).map f).sum + f (l.getD i a) = (l.map f).sum + f a := by
  intro l
  induction l with
  | nil => intro i a h; simp at h
  | cons b t ih =>
    intro i a h
    cases i with
    | zero => simp [List.set]; omega
    | succ k =>
      have hk : k < t.length := by simpa using h
      have := ih k a hk
      simp only [List.set, List.map_cons, List.sum_cons, List.getD_cons_succ]
      omega

theorem countEmpty_setCell {board : Board} {mv : Nat × Nat} {v : Int}
    (hmem : mv ∈ empty_cells board) (hv : v ≠ EMPTY) :
    countEmpty (setCell board mv v) + 1 = countEmpty board := by
  obtain ⟨x, y⟩ := mv
  rw [mem_empty_cells] at hmem
  obtain ⟨hx, hy, hcell⟩ := hmem
  have hrow := sum_map_set (fun row => row.countP (fun v => v = EMPTY)) board x
    ((board.getD x []).set y v) hx
  have hset := List.countP_set (fun w => decide (w = EMPTY)) (board.getD x []) y v hy
  have hgetE : (board.getD x [])[y] = EMPTY := by
    rw [← List.getD_eq_getElem (board.getD x []) 0 hy]
    exact hcell
  rw [hgetE] at hset
  simp only [decide_eq_true_eq] at hset
  rw [if_pos trivial, if_neg hv] at hset
  have hpos : 0 < (board.getD x []).countP (fun w => decide (w = EMPTY)) := by
    rw [List.countP_pos_iff]
    exact ⟨EMPTY, by rw [← hgetE]; exact List.getElem_mem hy, by simp⟩
  have hgd : board.getD x ((board.getD x []).set y v) = board.getD x [] := by
    rw [List.getD_eq_getElem _ _ hx, List.getD_eq_getElem _ _ hx]
  rw [hgd] at hrow
  dsimp only at hrow
  rw [countEmpty, countEmpty, setCell]
  dsimp only
  omega

theorem countEmpty_pos {board : Board} {mv : Nat × Nat}
    (hmem : mv ∈ empty_cells board) : 1 ≤ countEmpty board := by
  obtain ⟨x, y⟩ := mv
  rw [mem_empty_cells] at hmem
  obtain ⟨hx, hy, hcell⟩ := hmem
  have hgetE : (board.getD x [])[y] = EMPTY := by
    rw [← List.getD_eq_getElem (board.getD x []) 0 hy]
    exact hcell
  have hpos : 0 < (board.getD x []).countP (fun w => decide (w = EMPTY)) := by
    rw [List.countP_pos_iff]
    exact ⟨EMPTY, by rw [← hgetE]; exact List.getElem_mem hy, by simp⟩
  have hmemc : (board.getD x []).countP (fun w => decide (w = EMPTY)) ∈
      board.map (fun row => row.countP (fun v => v = EMPTY)) :=
    List.mem_map_of_mem _ (getD_mem board x [] hx)
  have := List.single_le_sum (l := board.map (fun row => row.countP (fun v => v = EMPTY)))
    (fun x _ => Nat.zero_le x) _ hmemc
  rw [countEmpty]
  omega

theorem sum_le_mul {l : List Nat} {m : Nat} (h : ∀ x ∈ l, x ≤ m) :
    l.sum ≤ l.length * m := by
  induction l with
  | nil => simp
  | cons a t ih =>
    have := ih (fun x hx => h x (by simp [hx]))
    have := h a (by simp)
    simp only [List.sum_cons, List.length_cons]
    calc a + t.sum ≤ m + t.length * m := by omega
    _ = (t.length + 1) * m := by ring

theorem countEmpty_le {n : Nat} {board : Board} (hsq : isSquare n board) :
    countEmpty board ≤ n * n := by
  rw [countEmpty]
  have h : ∀ x ∈ board.map (fun row => row.countP (fun v => v = EMPTY)), x ≤ n := by
    intro x hx
    rcases List.mem_map.mp hx with ⟨row, hrow, rfl⟩
    calc row.countP _ ≤ row.length := List.countP_le_length _
    _ = n := hsq.2 _ hrow
  calc (board.map _).sum ≤ (board.map _).length * n := sum_le_mul h
  _ = n * n := by rw [List.length_map, hsq.1]

/-! ### Lemmas about the `play` loop -/

theorem currentPlayer_mem (ps : List PlayerWithSide) (hne : ps ≠ []) (t : Nat) :
    ps.getD (t % ps.length) defaultPlayer ∈ ps := by
  have hpos : 0 < ps.length := List.length_pos.mpr hne
  exact getD_mem ps _ _ (Nat.mod_lt _ hpos)

theorem playAux_step (ps : List PlayerWithSide) (hne : ps ≠ []) (fuel : Nat)
    (board : Board) (t : Nat) :
    playAux ps (fuel + 1) board t =
      (let player := ps.getD (t % ps.length) defaultPlayer
       let mv := player.p.strat board
       if valid_move board mv then
         let board' := setCell board mv player.side
         if winning_move board' mv then some (.win player.side, board', t + 1)
         else if board_full board' then some (.draw, board', t + 1)
         else playAux ps fuel board' (t + 1)
       else some (.illegal mv, board, t + 1)) := by
  cases ps with
  | nil => exact absurd rfl hne
  | cons p rest => rfl

theorem playAux_some (ps : List PlayerWithSide) (hps : playersOk ps) :
    ∀ (fuel : Nat) (board : Board) (t : Nat), countEmpty board < fuel →
      ∃ r board' reqs, playAux ps fuel board t = some (r, board', reqs) := by
  intro fuel
  induction fuel with
  | zero => intro board t h; omega
  | succ fuel ih =>
    intro board t h
    cases hne : ps with
    | nil => exact ⟨.draw, board, t, rfl⟩
    | cons p rest =>
      rw [← hne]
      have hne' : ps ≠ [] := by rw [hne]; simp
      rw [playAux_step ps hne' fuel board t]
      dsimp only
      set player := ps.getD (t % ps.length) defaultPlayer with hpl
      set mv := player.p.strat board with hmv
      by_cases hvm : valid_move board mv = true
      · rw [if_pos hvm]
        by_cases hwin : winning_move (setCell board mv player.side) mv = true
        · rw [if_pos hwin]
          exact ⟨_, _, _, rfl⟩
        · rw [if_neg hwin]
          by_cases hfull : board_full (setCell board mv player.side) = true
          · rw [if_pos hfull]
            exact ⟨_, _, _, rfl⟩
          · rw [if_neg hfull]
            have hmem : mv ∈ empty_cells board := by simpa [valid_move] using hvm
            have hside : player.side ≠ EMPTY := by
              rcases hps player (currentPlayer_mem ps hne' t) with h | h <;>
                rw [h] <;> decide
            have hdec := countEmpty_setCell hmem hside
            exact ih (setCell board mv player.side) (t + 1) (by omega)
      · rw [if_neg hvm]
        exact ⟨_, _, _, rfl⟩

theorem playAux_requests (ps : List PlayerWithSide) (hps : playersOk ps) :
    ∀ (fuel : Nat) (board : Board) (t : Nat) (r : Result) (board' : Board) (reqs : Nat),
      playAux ps fuel board t = some (r, board', reqs) →
      reqs ≤ t + max 1 (countEmpty board) := by
  intro fuel
  induction fuel with
  | zero =>
    intro board t r b q h
    exact absurd h (by rw [show playAux ps 0 board t = none from rfl]; simp)
  | succ fuel ih =>
    intro board t r b q h
    cases hne : ps with
    | nil =>
      rw [hne] at h
      rw [show playAux [] (fuel + 1) board t = some (.draw, board, t) from rfl] at h
      simp only [Option.some.injEq, Prod.mk.injEq] at h
      omega
    | cons pl rest =>
      -- ps itself is untouched by the case split
      have hne' : ps ≠ [] := by rw [hne]; simp
      rw [playAux_step ps hne' fuel board t] at h
      dsimp only at h
      set player := ps.getD (t % ps.length) defaultPlayer with hpl
      set mv := player.p.strat board with hmv
      by_cases hvm : valid_move board mv = true
      · rw [if_pos hvm] at h
        have hmem : mv ∈ empty_cells board := by simpa [valid_move] using hvm
        have he1 : 1 ≤ countEmpty board := countEmpty_pos hmem
        by_cases hwin : winning_move (setCell board mv player.side) mv = true
        · rw [if_pos hwin] at h
          simp only [Option.some.injEq, Prod.mk.injEq] at h
          omega
        · rw [if_neg hwin] at h
          by_cases hfull : board_full (setCell board mv player.side) = true
          · rw [if_pos hfull] at h
            simp only [Option.some.injEq, Prod.mk.injEq] at h
            omega
          · rw [if_neg hfull] at h
            have hside : player.side ≠ EMPTY := by
              rcases hps player (currentPlayer_mem ps hne' t) with hs | hs <;>
                rw [hs] <;> decide
            have hdec := countEmpty_setCell hmem hside
            have hfull' : countEmpty (setCell board mv player.side) ≠ 0 := by
              intro h0
              exact hfull ((board_full_iff _).mpr h0)
            have := ih (setCell board mv player.side) (t + 1) r b q h
            omega
      · rw [if_neg hvm] at h
        simp only [Option.some.injEq, Prod.mk.injEq] at h
        omega

theorem playAux_inv (ps : List PlayerWithSide) (hps : playersOk ps) (n : Nat) :
    ∀ (fuel : Nat) (board : Board) (t : Nat) (r : Result) (board' : Board) (reqs : Nat),
      boardInv n board → playAux ps fuel board t = some (r, board', reqs) →
      boardInv n board' := by
  intro fuel
  induction fuel with
  | zero =>
    intro board t r b q _ h
    exact absurd h (by rw [show playAux ps 0 board t = none from rfl]; simp)
  | succ fuel ih =>
    intro board t r b q hinv h
    cases hne : ps with
    | nil =>
      rw [hne] at h
      rw [show playAux [] (fuel + 1) board t = some (.draw, board, t) from rfl] at h
      simp only [Option.some.injEq, Prod.mk.injEq] at h
      rw [← h.2.1]
      exact hinv
    | cons pl rest =>
      -- ps itself is untouched by the case split
      have hne' : ps ≠ [] := by rw [hne]; simp
      rw [playAux_step ps hne' fuel board t] at h
      dsimp only at h
      set player := ps.getD (t % ps.length) defaultPlayer with hpl
      set mv := player.p.strat board with hmv
      have hsideOk : player.side = EMPTY ∨ player.side = NOUGHT ∨ player.side = CROSS := by
        rcases hps player (currentPlayer_mem ps hne' t) with hs | hs
        · exact Or.inr (Or.inl hs)
        · exact Or.inr (Or.inr hs)
      have hinv' : boardInv n (setCell board mv player.side) :=
        ⟨isSquare_setCell hinv.1 mv player.side, cellsOk_setCell hinv.2 mv hsideOk⟩
      by_cases hvm : valid_move board mv = true
      · rw [if_pos hvm] at h
        by_cases hwin : winning_move (setCell board mv player.side) mv = true
        · rw [if_pos hwin] at h
          simp only [Option.some.injEq, Prod.mk.injEq] at h
          rw [← h.2.1]
          exact hinv'
        · rw [if_neg hwin] at h
          by_cases hfull : board_full (setCell board mv player.side) = true
          · rw [if_pos hfull] at h
            simp only [Option.some.injEq, Prod.mk.injEq] at h
            rw [← h.2.1]
            exact hinv'
          · rw [if_neg hfull] at h
            exact ih (setCell board mv player.side) (t + 1) r b q hinv' h
      · rw [if_neg hvm] at h
        simp only [Option.some.injEq, Prod.mk.injEq] at h
        rw [← h.2.1]
        exact hinv

/-! ### Lemmas about `run` -/

theorem run_destruct (players : List PlayerWithSide) (n : Nat) (shuffle : Bool)
    (sf : List PlayerWithSide → List PlayerWithSide) (fuel : Nat) (res : RunResult)
    (h : run players n shuffle sf fuel = some res) :
    res.startOrder = players ∧
    res.playersAfter = (if shuffle then sf players else players) ∧
    ∃ r b q,
      playAux (if shuffle then sf players else players) fuel (emptyBoard n) 0 =
        some (r, b, q) ∧
      res.boardAfter = b ∧
      ((∃ mv, r = .illegal mv ∧ res.res = .error mv ∧ res.finishCalls = []) ∨
       (∃ s, r = .win s ∧ res.res = .ok (some s) ∧
         res.finishCalls =
           (if shuffle then sf players else players).map (fun q => (q, some s))) ∨
       (r = .draw ∧ res.res = .ok none ∧
         res.finishCalls =
           (if shuffle then sf players else players).map (fun q => (q, none)))) := by
  unfold run at h
  dsimp only at h
  split at h
  · exact absurd h (by simp)
  case _ mv b q heq =>
    simp only [Option.some.injEq] at h
    subst h
    exact ⟨rfl, rfl, .illegal mv, b, q, heq, rfl, Or.inl ⟨mv, rfl, rfl, rfl⟩⟩
  case _ s b q heq =>
    simp only [Option.some.injEq] at h
    subst h
    exact ⟨rfl, rfl, .win s, b, q, heq, rfl, Or.inr (Or.inl ⟨s, rfl, rfl, rfl⟩)⟩
  case _ b q heq =>
    simp only [Option.some.injEq] at h
    subst h
    exact ⟨rfl, rfl, .draw, b, q, heq, rfl, Or.inr (Or.inr ⟨rfl, rfl, rfl⟩)⟩

theorem playersOk_perm {l l' : List PlayerWithSide} (hp : l.Perm l')
    (h : playersOk l') : playersOk l :=
  fun q hq => h q (hp.mem_iff.mp hq)

theorem boardInv_emptyBoard (n : Nat) : boardInv n (emptyBoard n) := by
  refine ⟨⟨by simp [emptyBoard], ?_⟩, ?_⟩
  · intro row hrow
    rw [List.eq_of_mem_replicate hrow]
    simp
  · intro row hrow v hv
    rw [List.eq_of_mem_replicate hrow] at hv
    exact Or.inl (List.eq_of_mem_replicate hv)

/-- C5: when the current player's move is not in `empty_cells` of the
current board, the play loop stops at once with the illegal-move error:
the returned board equals the board just before the request, the
request count shows no further request was made, and at the `run` level
an error outcome means `finish` was never called on any player. -/
theorem illegal_move_spec (ps : List PlayerWithSide) (board : Board) (t fuel : Nat)
    (hne : ps ≠ [])
    (hbad : valid_move board ((ps.getD (t % ps.length) defaultPlayer).p.strat board)
      = false) :
    playAux ps (fuel + 1) board t =
      some (.illegal ((ps.getD (t % ps.length) defaultPlayer).p.strat board),
        board, t + 1) ∧
    (∀ players n shuffle sf fuel2 res mv, run players n shuffle sf fuel2 = some res →
      res.res = .error mv → res.finishCalls = []) := by
  constructor
  · rw [playAux_step ps hne fuel board t]
    dsimp only
    rw [if_neg (by rw [hbad]; simp)]
  · intro players n shuffle sf fuel2 res mv hrun herr
    obtain ⟨-, -, r, b, q, -, -, hcase⟩ := run_destruct players n shuffle sf fuel2 res hrun
    rcases hcase with ⟨mv', -, -, hfin⟩ | ⟨s, -, hres, -⟩ | ⟨-, hres, -⟩
    · exact hfin
    · rw [hres] at herr; exact absurd herr (by simp)
    · rw [hres] at herr; exact absurd herr (by simp)

theorem illegal_move_spec_witness :
    (([⟨⟨0, fun _ => (5, 5)⟩, NOUGHT⟩] : List PlayerWithSide) ≠ [] ∧
      valid_move [[0]]
        ((([⟨⟨0, fun _ => (5, 5)⟩, NOUGHT⟩] : List PlayerWithSide).getD
          (0 % ([⟨⟨0, fun _ => (5, 5)⟩, NOUGHT⟩] : List PlayerWithSide).length)
          defaultPlayer).p.strat [[0]]) = false) ∧
    (playAux [⟨⟨0, fun _ => (5, 5)⟩, NOUGHT⟩] (0 + 1) [[0]] 0 =
      some (.illegal
        ((([⟨⟨0, fun _ => (5, 5)⟩, NOUGHT⟩] : List PlayerWithSide).getD
          (0 % ([⟨⟨0, fun _ => (5, 5)⟩, NOUGHT⟩] : List PlayerWithSide).length)
          defaultPlayer).p.strat [[0]]), [[0]], 0 + 1) ∧
    (∀ players n shuffle sf fuel2 res mv, run players n shuffle sf fuel2 = some res →
      res.res = .error mv → res.finishCalls = [])) :=
  ⟨⟨by simp, by decide⟩,
    illegal_move_spec [⟨⟨0, fun _ => (5, 5)⟩, NOUGHT⟩] [[0]] 0 0 (by simp) (by decide)⟩

/-- C7: the board invariant - an n×n grid whose cells are all in
{EMPTY, NOUGHT, CROSS} - holds for the reset board, is preserved by
every validated move application, is preserved across the whole play
loop, and holds for the final board of every completed `run`. -/
theorem board_invariant_spec (n : Nat) (ps : List PlayerWithSide) (hps : playersOk ps)
    (sf : List PlayerWithSide → List PlayerWithSide)
    (hsf : ∀ l : List PlayerWithSide, (sf l).Perm l) :
    boardInv n (emptyBoard n) ∧
    (∀ board mv v, boardInv n board → (v = EMPTY ∨ v = NOUGHT ∨ v = CROSS) →
      boardInv n (setCell board mv v)) ∧
    (∀ fuel board t r board' reqs, boardInv n board →
      playAux ps fuel board t = some (r, board', reqs) → boardInv n board') ∧
    (∀ shuffle fuel res, run ps n shuffle sf fuel = some res →
      boardInv n res.boardAfter) := by
  refine ⟨boardInv_emptyBoard n, ?_, ?_, ?_⟩
  · intro board mv v hinv hv
    exact ⟨isSquare_setCell hinv.1 mv v, cellsOk_setCell hinv.2 mv hv⟩
  · intro fuel board t r board' reqs hinv h
    exact playAux_inv ps hps n fuel board t r board' reqs hinv h
  · intro shuffle fuel res hrun
    obtain ⟨-, -, r, b, q, hplay, hb, -⟩ := run_destruct ps n shuffle sf fuel res hrun
    have hps' : playersOk (if shuffle then sf ps else ps) := by
      cases shuffle with
      | false => exact hps
      | true => exact playersOk_perm (hsf ps) hps
    rw [hb]
    exact playAux_inv _ hps' n fuel (emptyBoard n) 0 r b q (boardInv_emptyBoard n) hplay

theorem board_invariant_spec_witness :
    (playersOk [⟨⟨0, fun _ => (0, 0)⟩, NOUGHT⟩] ∧
      ∀ l : List PlayerWithSide, (id l).Perm l) ∧
    (boardInv 1 (emptyBoard 1) ∧
    (∀ board mv v, boardInv 1 board → (v = EMPTY ∨ v = NOUGHT ∨ v = CROSS) →
      boardInv 1 (setCell board mv v)) ∧
    (∀ fuel board t r board' reqs, boardInv 1 board →
      playAux [⟨⟨0, fun _ => (0, 0)⟩, NOUGHT⟩] fuel board t = some (r, board', reqs) →
      boardInv 1 board') ∧
    (∀ shuffle fuel res,
      run [⟨⟨0, fun _ => (0, 0)⟩, NOUGHT⟩] 1 shuffle id fuel = some res →
      boardInv 1 res.boardAfter)) :=
  ⟨⟨by decide, fun l => List.Perm.refl l⟩,
    board_invariant_spec 1 [⟨⟨0, fun _ => (0, 0)⟩, NOUGHT⟩] (by decide) id
      (fun l => List.Perm.refl l)⟩

/-- C8: on an n×n board with n ≥ 1, for players whose sides were
assigned from the side list, the play loop returns one of its three
outcomes (win, draw, or the illegal-move error) without exhausting
n²+1 fuel, making at most n² move requests; each applied valid move
consumes exactly one EMPTY cell. -/
theorem play_terminates_spec (n : Nat) (hn : 1 ≤ n) (ps : List PlayerWithSide)
    (hps : playersOk ps) (board : Board) (hsq : isSquare n board) :
    (∃ r board' reqs, playAux ps (n * n + 1) board 0 = some (r, board', reqs) ∧
      reqs ≤ n * n) ∧
    (∀ mv v, valid_move board mv = true → v ≠ EMPTY →
      countEmpty (setCell board mv v) + 1 = countEmpty board) := by
  constructor
  · have hle := countEmpty_le hsq
    obtain ⟨r, b, q, heq⟩ := playAux_some ps hps (n * n + 1) board 0 (by omega)
    have hreq := playAux_requests ps hps (n * n + 1) board 0 r b q heq
    have h11 : 1 * 1 ≤ n * n := Nat.mul_le_mul hn hn
    exact ⟨r, b, q, heq, by omega⟩
  · intro mv v hvm hv
    exact countEmpty_setCell (by simpa [valid_move] using hvm) hv

theorem play_terminates_spec_witness :
    (1 ≤ 1 ∧ playersOk [⟨⟨0, fun _ => (0, 0)⟩, NOUGHT⟩] ∧
      isSquare 1 [[0]]) ∧
    ((∃ r board' reqs,
      playAux [⟨⟨0, fun _ => (0, 0)⟩, NOUGHT⟩] (1 * 1 + 1) [[0]] 0 =
        some (r, board', reqs) ∧ reqs ≤ 1 * 1) ∧
    (∀ mv v, valid_move [[0]] mv = true → v ≠ EMPTY →
      countEmpty (setCell [[0]] mv v) + 1 = countEmpty [[0]])) :=
  ⟨⟨by decide, by decide, by decide⟩,
    play_terminates_spec 1 (by decide) [⟨⟨0, fun _ => (0, 0)⟩, NOUGHT⟩] (by decide)
      [[0]] (by decide)⟩

/-- C4: `set_players` fails with the configuration error exactly when
the supplied list's length differs from 2 (the number of sides); on
success each player receives a distinct side from the fixed side list
in list order, and a later shuffle (any permutation of the player
collection) leaves the player-to-side binding untouched. -/
theorem set_players_spec (players : List Player) :
    ((∃ e, set_players players = .error e) ↔ players.length ≠ 2) ∧
    (∀ p0 p1 : Player, set_players [p0, p1] = .ok [⟨p0, CROSS⟩, ⟨p1, NOUGHT⟩]) ∧
    (∀ ps, set_players players = .ok ps → ps.map (fun q => q.side) = sides) ∧
    (∀ ps (sf : List PlayerWithSide → List PlayerWithSide),
      (∀ l, (sf l).Perm l) → set_players players = .ok ps →
      ∀ q, q ∈ sf ps ↔ q ∈ ps) := by
  refine ⟨?_, ?_, ?_, ?_⟩
  · constructor
    · rintro ⟨e, he⟩
      intro hlen
      rw [set_players, if_neg (by simp [sides]; omega)] at he
      exact absurd he (by simp)
    · intro hlen
      exact ⟨"Incorrect number of players, expected " ++ toString sides.length ++ ".",
        by rw [set_players, if_pos (by simp [sides]; omega)]⟩
  · intro p0 p1
    rfl
  · intro ps h
    rw [set_players] at h
    split at h
    · exact absurd h (by simp)
    case _ hcond =>
      have hlen : players.length = 2 := by
        simp only [sides] at hcond
        simpa using hcond
      simp only [Except.ok.injEq] at h
      subst h
      match players, hlen with
      | [a, b], _ => rfl
  · intro ps sf hsf h q
    exact (hsf ps).mem_iff

theorem set_players_spec_witness :
    (([⟨0, fun _ => (0, 0)⟩] : List Player).length ≠ 2 ∧
      (∃ e, set_players [⟨0, fun _ => (0, 0)⟩] = .error e)) ∧
    set_players [⟨0, fun _ => (0, 0)⟩, ⟨1, fun _ => (1, 1)⟩] =
      .ok [⟨⟨0, fun _ => (0, 0)⟩, CROSS⟩, ⟨⟨1, fun _ => (1, 1)⟩, NOUGHT⟩] :=
  ⟨⟨by decide, (set_players_spec [⟨0, fun _ => (0, 0)⟩]).1.mpr (by decide)⟩,
    (set_players_spec [⟨0, fun _ => (0, 0)⟩]).2.1 ⟨0, fun _ => (0, 0)⟩
      ⟨1, fun _ => (1, 1)⟩⟩

/-- C10: on a 1×1 board, whenever the first mover (whose side is one of
the two defined sides) returns a valid move, the play loop immediately
returns a win for that side after one request - never the draw
sentinel - and `run` returns that side. -/
theorem n1_always_win_spec (ps : List PlayerWithSide) (hne : ps ≠ [])
    (hps : playersOk ps) (fuel : Nat)
    (hvalid : valid_move (emptyBoard 1)
      ((ps.getD 0 defaultPlayer).p.strat (emptyBoard 1)) = true) :
    playAux ps (fuel + 1) (emptyBoard 1) 0 =
      some (.win (ps.getD 0 defaultPlayer).side,
        setCell (emptyBoard 1) ((ps.getD 0 defaultPlayer).p.strat (emptyBoard 1))
          (ps.getD 0 defaultPlayer).side, 1) ∧
    (∀ b q, playAux ps (fuel + 1) (emptyBoard 1) 0 ≠ some (.draw, b, q)) ∧
    (∀ sf res, run ps 1 false sf (fuel + 1) = some res →
      res.res = .ok (some (ps.getD 0 defaultPlayer).side)) := by
  have hsq1 : isSquare 1 (emptyBoard 1) := (boardInv_emptyBoard 1).1
  have hstep := playAux_step ps hne fuel (emptyBoard 1) 0
  rw [Nat.zero_mod] at hstep
  dsimp only at hstep
  set player := ps.getD 0 defaultPlayer with hpl
  have hmem0 : player ∈ ps := by
    have := currentPlayer_mem ps hne 0
    rwa [Nat.zero_mod] at this
  generalize hmv : player.p.strat (emptyBoard 1) = mv at hstep hvalid ⊢
  obtain ⟨a, b⟩ := mv
  have hmem : (a, b) ∈ empty_cells (emptyBoard 1) := by
    simpa [valid_move] using hvalid
  obtain ⟨ha, hb, -⟩ := (mem_empty_cells_iff hsq1 a b).mp hmem
  have ha0 : a = 0 := by omega
  have hb0 : b = 0 := by omega
  subst ha0
  subst hb0
  have hmain : playAux ps (fuel + 1) (emptyBoard 1) 0 =
      some (.win player.side, setCell (emptyBoard 1) (0, 0) player.side, 1) := by
    rw [hstep, if_pos hvalid]
    rcases hps player hmem0 with hs | hs <;> rw [hs, if_pos (by decide)]
  refine ⟨hmain, ?_, ?_⟩
  · intro b2 q2 heq
    rw [hmain] at heq
    simp at heq
  · intro sf res hrun
    obtain ⟨-, -, r2, b2, q2, hplay, -, hcase⟩ :=
      run_destruct ps 1 false sf (fuel + 1) res hrun
    simp only [Bool.false_eq_true, if_false] at hplay hcase
    rw [hmain] at hplay
    simp only [Option.some.injEq, Prod.mk.injEq] at hplay
    obtain ⟨hr2, -, -⟩ := hplay
    rcases hcase with ⟨mv', hr, -, -⟩ | ⟨s, hr, hres, -⟩ | ⟨hr, -, -⟩
    · rw [← hr2] at hr; exact absurd hr (by simp)
    · rw [← hr2] at hr
      simp only [Result.win.injEq] at hr
      rw [hres, hr]
    · rw [← hr2] at hr; exact absurd hr (by simp)

theorem n1_always_win_spec_witness :
    (([⟨⟨7, fun _ => (0, 0)⟩, NOUGHT⟩] : List PlayerWithSide) ≠ [] ∧
      playersOk [⟨⟨7, fun _ => (0, 0)⟩, NOUGHT⟩] ∧
      valid_move (emptyBoard 1)
        ((([⟨⟨7, fun _ => (0, 0)⟩, NOUGHT⟩] : List PlayerWithSide).getD 0
          defaultPlayer).p.strat (emptyBoard 1)) = true) ∧
    (playAux [⟨⟨7, fun _ => (0, 0)⟩, NOUGHT⟩] (0 + 1) (emptyBoard 1) 0 =
      some (.win (([⟨⟨7, fun _ => (0, 0)⟩, NOUGHT⟩] : List PlayerWithSide).getD 0
          defaultPlayer).side,
        setCell (emptyBoard 1)
          ((([⟨⟨7, fun _ => (0, 0)⟩, NOUGHT⟩] : List PlayerWithSide).getD 0
            defaultPlayer).p.strat (emptyBoard 1))
          (([⟨⟨7, fun _ => (0, 0)⟩, NOUGHT⟩] : List PlayerWithSide).getD 0
            defaultPlayer).side, 1) ∧
    (∀ b q, playAux [⟨⟨7, fun _ => (0, 0)⟩, NOUGHT⟩] (0 + 1) (emptyBoard 1) 0 ≠
      some (.draw, b, q)) ∧
    (∀ sf res, run [⟨⟨7, fun _ => (0, 0)⟩, NOUGHT⟩] 1 false sf (0 + 1) = some res →
      res.res = .ok (some (([⟨⟨7, fun _ => (0, 0)⟩, NOUGHT⟩] :
        List PlayerWithSide).getD 0 defaultPlayer).side))) :=
  ⟨⟨by simp, by decide, by decide⟩,
    n1_always_win_spec [⟨⟨7, fun _ => (0, 0)⟩, NOUGHT⟩] (by simp) (by decide) 0
      (by decide)⟩

/-- C2 (counterexample): with players supplied in the order [A, B],
`set_players` assigns A the side CROSS = −1 (the first entry of the
side list), not +1, and the scripted match (0,0)A (0,1)B (1,1)A (1,0)B
(2,2)A ends with `run` returning −1, not +1. -/
theorem scenario_3x3_counterexample :
    set_players [scriptedA, scriptedB] =
      .ok [⟨scriptedA, CROSS⟩, ⟨scriptedB, NOUGHT⟩] ∧
    CROSS ≠ 1 ∧
    ((run [⟨scriptedA, CROSS⟩, ⟨scriptedB, NOUGHT⟩] 3 false id 10).map
      (fun r => r.res) = some (.ok (some CROSS))) ∧
    some (Except.ok (some CROSS) : Except (Nat × Nat) (Option Int)) ≠
      some (.ok (some (1 : Int))) :=
  ⟨rfl, by decide, rfl, by simp [CROSS]⟩

/-- C2 (amended): players A and B supplied in that order receive sides
CROSS = −1 and NOUGHT = +1 respectively; the move sequence (0,0)A
(0,1)B (1,1)A (1,0)B (2,2)A completes A's main diagonal, `run` returns
side −1, and finish is called on both players with winner −1. -/
theorem scenario_3x3_amended :
    set_players [scriptedA, scriptedB] =
      .ok [⟨scriptedA, CROSS⟩, ⟨scriptedB, NOUGHT⟩] ∧
    ((run [⟨scriptedA, CROSS⟩, ⟨scriptedB, NOUGHT⟩] 3 false id 10).map
      (fun r => r.startOrder.map (fun q => q.p.id)) = some [0, 1]) ∧
    ((run [⟨scriptedA, CROSS⟩, ⟨scriptedB, NOUGHT⟩] 3 false id 10).map
      (fun r => r.res) = some (.ok (some CROSS))) ∧
    ((run [⟨scriptedA, CROSS⟩, ⟨scriptedB, NOUGHT⟩] 3 false id 10).map
      (fun r => r.finishCalls.map (fun q => (q.1.p.id, q.1.side, q.2))) =
      some [(0, CROSS, some CROSS), (1, NOUGHT, some CROSS)]) ∧
    ((run [⟨scriptedA, CROSS⟩, ⟨scriptedB, NOUGHT⟩] 3 false id 10).map
      (fun r => r.boardAfter) =
      some [[CROSS, NOUGHT, EMPTY], [NOUGHT, CROSS, EMPTY], [EMPTY, EMPTY, CROSS]]) :=
  ⟨rfl, rfl, rfl, rfl, rfl⟩

/-- C6 (counterexample): with shuffling enabled, the in-place shuffle
performed inside play persists in the player collection, so on a
repeated `run` of the same runner the start() notifications follow the
shuffled order [B, A], not the supplied order [A, B]: the start order
of later runs is affected by shuffle. -/
theorem shuffle_counterexample :
    ((run [⟨constA, CROSS⟩, ⟨constB, NOUGHT⟩] 1 true List.reverse 5).map
      (fun r => r.playersAfter.map (fun q => q.p.id)) = some [1, 0]) ∧
    ((run [⟨constB, NOUGHT⟩, ⟨constA, CROSS⟩] 1 true List.reverse 5).map
      (fun r => r.startOrder.map (fun q => q.p.id)) = some [1, 0]) ∧
    ([1, 0] : List Nat) ≠ [0, 1] :=
  ⟨rfl, rfl, by decide⟩

/-- C6 (amended): within any single `run`, start() is called in the
player collection's order as it stands on entry to `run` (before that
run's shuffle), and shuffling - any permutation of the collection -
only reorders the collection: after the run it holds exactly the same
player-with-side records, so no player's assigned side is changed. The
permutation does persist in the collection for subsequent runs. -/
theorem shuffle_frame_spec (players : List PlayerWithSide) (n : Nat)
    (shuffle : Bool) (sf : List PlayerWithSide → List PlayerWithSide)
    (fuel : Nat) (res : RunResult)
    (hsf : ∀ l : List PlayerWithSide, (sf l).Perm l)
    (hrun : run players n shuffle sf fuel = some res) :
    res.startOrder = players ∧
    res.playersAfter.Perm players ∧
    (∀ q, q ∈ res.playersAfter ↔ q ∈ players) := by
  obtain ⟨hstart, hafter, -⟩ := run_destruct players n shuffle sf fuel res hrun
  have hperm : res.playersAfter.Perm players := by
    rw [hafter]
    cases shuffle with
    | false => simp
    | true => simpa using hsf players
  exact ⟨hstart, hperm, fun q => hperm.mem_iff⟩

theorem shuffle_frame_spec_witness :
    ((∀ l : List PlayerWithSide, (id l).Perm l) ∧
      run [⟨constA, CROSS⟩, ⟨constB, NOUGHT⟩] 1 false id 5 =
        some ⟨[⟨constA, CROSS⟩, ⟨constB, NOUGHT⟩], .ok (some CROSS),
          [(⟨constA, CROSS⟩, some CROSS), (⟨constB, NOUGHT⟩, some CROSS)],
          [⟨constA, CROSS⟩, ⟨constB, NOUGHT⟩], [[CROSS]]⟩) ∧
    ((⟨[⟨constA, CROSS⟩, ⟨constB, NOUGHT⟩], .ok (some CROSS),
        [(⟨constA, CROSS⟩, some CROSS), (⟨constB, NOUGHT⟩, some CROSS)],
        [⟨constA, CROSS⟩, ⟨constB, NOUGHT⟩], [[CROSS]]⟩ : RunResult).startOrder =
      [⟨constA, CROSS⟩, ⟨constB, NOUGHT⟩] ∧
    (⟨[⟨constA, CROSS⟩, ⟨constB, NOUGHT⟩], .ok (some CROSS),
        [(⟨constA, CROSS⟩, some CROSS), (⟨constB, NOUGHT⟩, some CROSS)],
        [⟨constA, CROSS⟩, ⟨constB, NOUGHT⟩], [[CROSS]]⟩ : RunResult).playersAfter.Perm
      [⟨constA, CROSS⟩, ⟨constB, NOUGHT⟩] ∧
    (∀ q, q ∈ (⟨[⟨constA, CROSS⟩, ⟨constB, NOUGHT⟩], .ok (some CROSS),
        [(⟨constA, CROSS⟩, some CROSS), (⟨constB, NOUGHT⟩, some CROSS)],
        [⟨constA, CROSS⟩, ⟨constB, NOUGHT⟩], [[CROSS]]⟩ : RunResult).playersAfter ↔
      q ∈ [⟨constA, CROSS⟩, ⟨constB, NOUGHT⟩])) :=
  ⟨⟨fun l => List.Perm.refl l, rfl⟩,
    shuffle_frame_spec [⟨constA, CROSS⟩, ⟨constB, NOUGHT⟩] 1 false id 5
      ⟨[⟨constA, CROSS⟩, ⟨constB, NOUGHT⟩], .ok (some CROSS),
        [(⟨constA, CROSS⟩, some CROSS), (⟨constB, NOUGHT⟩, some CROSS)],
        [⟨constA, CROSS⟩, ⟨constB, NOUGHT⟩], [[CROSS]]⟩
      (fun l => List.Perm.refl l) rfl⟩

/-! ### Lemmas about `board_str` and its inverse -/

theorem splitOnChar_no (c : Char) (xs : List Char) (h : c ∉ xs) :
    splitOnChar c xs = [xs] := by
  induction xs with
  | nil => rfl
  | cons a t ih =>
    have ha : ¬(a = c) := fun heq => h (by rw [heq]; exact List.mem_cons_self c t)
    simp only [splitOnChar, if_neg ha]
    rw [ih (fun hc => h (List.mem_cons_of_mem a hc))]

theorem splitOnChar_append (c : Char) (xs rest : List Char) (h : c ∉ xs) :
    splitOnChar c (xs ++ c :: rest) = xs :: splitOnChar c rest := by
  induction xs with
  | nil => simp [splitOnChar]
  | cons a t ih =>
    have ha : ¬(a = c) := fun heq => h (by rw [heq]; exact List.mem_cons_self c t)
    have ht : c ∉ t := fun hc => h (List.mem_cons_of_mem a hc)
    simp only [List.cons_append, splitOnChar, if_neg ha, List.append_eq]
    rw [ih ht]

theorem splitOnChar_strJoin (c : Char) :
    ∀ (ps : List (List Char)), ps ≠ [] → (∀ p ∈ ps, c ∉ p) →
      splitOnChar c (strJoin c ps) = ps := by
  intro ps
  induction ps with
  | nil => intro h; exact absurd rfl h
  | cons p rest ih =>
    intro _ hall
    cases rest with
    | nil =>
      simp only [strJoin]
      exact splitOnChar_no c p (hall p (List.mem_cons_self _ _))
    | cons q rest2 =>
      simp only [strJoin]
      rw [splitOnChar_append c p _ (hall p (List.mem_cons_self _ _))]
      rw [ih (by simp) (fun r hr => hall r (List.mem_cons_of_mem p hr))]

theorem mem_strJoin (c : Char) :
    ∀ (ps : List (List Char)) (ch : Char), ch ∈ strJoin c ps →
      ch = c ∨ ∃ p ∈ ps, ch ∈ p := by
  intro ps
  induction ps with
  | nil => intro ch h; simp [strJoin] at h
  | cons p rest ih =>
    intro ch h
    cases rest with
    | nil =>
      simp only [strJoin] at h
      exact Or.inr ⟨p, List.mem_cons_self _ _, h⟩
    | cons q rest2 =>
      simp only [strJoin] at h
      rcases List.mem_append.mp h with hp | hc
      · exact Or.inr ⟨p, by simp, hp⟩
      · rcases List.mem_cons.mp hc with rfl | hj
        · exact Or.inl rfl
        · rcases ih ch hj with h1 | ⟨r, hr, hm⟩
          · exact Or.inl h1
          · exact Or.inr ⟨r, List.mem_cons_of_mem p hr, hm⟩

theorem token_ne (v : Int) : token v ≠ '|' ∧ token v ≠ '\n' := by
  rw [token]
  split_ifs <;> exact ⟨by decide, by decide⟩

theorem tokenInv_token (v : Int) (h : v = EMPTY ∨ v = NOUGHT ∨ v = CROSS) :
    tokenInv [token v] = some v := by
  rcases h with rfl | rfl | rfl <;> decide

theorem parseTokens_map (row : List Int)
    (h : ∀ v ∈ row, v = EMPTY ∨ v = NOUGHT ∨ v = CROSS) :
    parseTokens (row.map (fun v => [token v])) = some row := by
  induction row with
  | nil => rfl
  | cons v t ih =>
    simp only [List.map_cons, parseTokens]
    rw [tokenInv_token v (h v (by simp)), ih (fun w hw => h w (by simp [hw]))]

theorem parseRows_map (rows : List (List Int))
    (h : ∀ row ∈ rows, row ≠ [] ∧ ∀ v ∈ row, v = EMPTY ∨ v = NOUGHT ∨ v = CROSS) :
    parseRows
      (rows.map (fun row => strJoin '|' (row.map (fun v => [token v])))) =
      some rows := by
  induction rows with
  | nil => rfl
  | cons row rest ih =>
    simp only [List.map_cons, parseRows]
    have hr := h row (by simp)
    have hsplit : splitOnChar '|' (strJoin '|' (row.map (fun v => [token v]))) =
        row.map (fun v => [token v]) := by
      apply splitOnChar_strJoin
      · simp [hr.1]
      · intro p hp
        rcases List.mem_map.mp hp with ⟨v, hv, rfl⟩
        simp only [List.mem_singleton]
        exact fun heq => (token_ne v).1 heq.symm
    rw [hsplit, parseTokens_map row hr.2, ih (fun r hr2 => h r (by simp [hr2]))]

/-- C9: rendering a board whose cells are all in {EMPTY, +1, −1} with
`board_str` (tokens joined by the bar within a row, rows joined by
newline) and parsing the tokens back recovers the board exactly; the
token map is injective on {EMPTY, NOUGHT, CROSS} and `tokenInv` is its
left inverse. -/
theorem board_str_roundtrip (n : Nat) (board : Board) (hn : 1 ≤ n)
    (hsq : isSquare n board) (hcells : cellsOk board) :
    parse_board (board_str board) = some board ∧
    (∀ v w : Int, (v = EMPTY ∨ v = NOUGHT ∨ v = CROSS) →
      (w = EMPTY ∨ w = NOUGHT ∨ w = CROSS) → token v = token w → v = w) ∧
    (∀ v : Int, (v = EMPTY ∨ v = NOUGHT ∨ v = CROSS) →
      tokenInv [token v] = some v) := by
  refine ⟨?_, ?_, fun v hv => tokenInv_token v hv⟩
  · have hrows : ∀ row ∈ board, row ≠ [] ∧
        ∀ v ∈ row, v = EMPTY ∨ v = NOUGHT ∨ v = CROSS := by
      intro row hrow
      refine ⟨?_, fun v hv => hcells row hrow v hv⟩
      have := hsq.2 row hrow
      intro hnil
      rw [hnil] at this
      simp at this
      omega
    rw [parse_board, board_str]
    rw [splitOnChar_strJoin '\n' _ ?hne ?hnl]
    case hne =>
      have : board ≠ [] := by
        intro hnil
        have := hsq.1
        rw [hnil] at this
        simp at this
        omega
      simp [this]
    case hnl =>
      intro r hrmem
      rcases List.mem_map.mp hrmem with ⟨row, hrow, rfl⟩
      intro hnl
      rcases mem_strJoin '|' _ '\n' hnl with heq | ⟨p, hp, hmem⟩
      · exact absurd heq (by decide)
      · rcases List.mem_map.mp hp with ⟨v, hv, rfl⟩
        rw [List.mem_singleton] at hmem
        exact (token_ne v).2 hmem.symm
    exact parseRows_map board hrows
  · intro v w hv hw heq
    rcases hv with rfl | rfl | rfl <;> rcases hw with rfl | rfl | rfl <;>
      first
        | rfl
        | exact absurd heq (by decide)

theorem board_str_roundtrip_witness :
    (1 ≤ 2 ∧ isSquare 2 [[0, 1], [-1, 0]] ∧ cellsOk [[0, 1], [-1, 0]]) ∧
    (parse_board (board_str [[0, 1], [-1, 0]]) = some [[0, 1], [-1, 0]] ∧
    (∀ v w : Int, (v = EMPTY ∨ v = NOUGHT ∨ v = CROSS) →
      (w = EMPTY ∨ w = NOUGHT ∨ w = CROSS) → token v = token w → v = w) ∧
    (∀ v : Int, (v = EMPTY ∨ v = NOUGHT ∨ v = CROSS) →
      tokenInv [token v] = some v)) :=
  ⟨⟨by decide, by decide, by decide⟩,
    board_str_roundtrip 2 [[0, 1], [-1, 0]] (by decide) (by decide) (by decide)⟩

end TTT
